import Mathlib

/-!
Verification of the `Executor` base class
(`src/model_executors/base_executor.py`) against its specification.

The Python code is shallowly embedded: numpy arrays of rows become
`List Row` (a row is a list of integers), Python lists of arrays become
`List Arr`, dictionaries of augmentation parameters become a structure,
fallible operations return `Except String`, and the numpy random source
is an explicit parameter together with a predicate stating the
documented contract of `np.random.choice(..., replace=False)`.
-/

namespace BaseExecutor

/-- A row of a numpy array (one sample); entries are modelled as integers. -/
abbrev Row : Type := List Int

/-- A numpy array, viewed as its list of leading-dimension slices. -/
abbrev Arr : Type := List Row

/-- The run configuration (`self.conf`): the fields `get_fake` and
`get_data_generator` read. -/
structure Conf where
  batch_size : Int
  seed : Int
  deriving Repr, DecidableEq

/-- Python slice `l[-n:]`: the last at-most-`n` elements of `l`. -/
def lastN (n : Nat) (l : List α) : List α :=
  l.drop (l.length - n)

/-- Embedding of `np.random.choice(n, size=(k,), replace=False)`.
`rng` is the pseudo-random source: given the population size and the
sample size it yields the chosen indices.  numpy raises on a negative
size and when a without-replacement sample exceeds the population. -/
def np_random_choice (rng : Nat → Nat → List Nat) (n : Nat) (size : Int) :
    Except String (List Nat) :=
  if size < 0 then
    .error "ValueError: negative dimensions are not allowed"
  else if n < size.toNat then
    .error "ValueError: Cannot take a larger sample than population when 'replace=False'"
  else
    .ok (rng n size.toNat)

/-- The documented contract of numpy's without-replacement choice: whenever
the requested size fits the population, the returned indices are exactly
`k` pairwise-distinct valid indices. -/
def ChoiceRng (rng : Nat → Nat → List Nat) : Prop :=
  ∀ n k, k ≤ n →
    (rng n k).length = k ∧ (rng n k).Nodup ∧ ∀ i ∈ rng n k, i < n

/-- `Executor.get_fake` after the `sample_size == -1` default has been
resolved (the body from line 130 on): extend the pool with the rows of
`pred` when `pred` is non-empty, cap it to the last 50 entries, then draw
a without-replacement sample of the requested size. -/
def get_fake_core (rng : Nat → Nat → List Nat) (pred : Arr)
    (fake_pool : Arr) (sample_size : Int) : Except String (Arr × Arr) :=
  let fake_pool := if 0 < pred.length then fake_pool ++ pred else fake_pool
  let fake_pool := lastN 50 fake_pool
  match np_random_choice rng fake_pool.length sample_size with
  | .error e => .error e
  | .ok sel => .ok (fake_pool, sel.map (fun ind => fake_pool.getD ind []))

/-- `Executor.get_fake`: a `sample_size` of `-1` means `conf.batch_size`. -/
def get_fake (conf : Conf) (rng : Nat → Nat → List Nat) (pred : Arr)
    (fake_pool : Arr) (sample_size : Int) : Except String (Arr × Arr) :=
  get_fake_core rng pred fake_pool
    (if sample_size = -1 then conf.batch_size else sample_size)

/-- The pool value `get_fake` works with after extension and capping. -/
def cappedPool (pred fake_pool : Arr) : Arr :=
  lastN 50 (if 0 < pred.length then fake_pool ++ pred else fake_pool)

/-- A concrete random source used by the witnesses: always pick the first
`k` indices. -/
def rngFirst : Nat → Nat → List Nat := fun _ k => List.range k

theorem rngFirst_contract : ChoiceRng rngFirst := by
  intro n k hk
  refine ⟨List.length_range k, List.nodup_range k, ?_⟩
  intro i hi
  exact lt_of_lt_of_le (List.mem_range.mp hi) hk

theorem lastN_length_le (n : Nat) (l : List α) : (lastN n l).length ≤ n := by
  simp only [lastN, List.length_drop]
  omega

/-- The dictionary built by `Executor.get_datagen_params`: one field per
key of the Python dict. Numeric values are rationals (Python floats/ints). -/
structure DatagenParams where
  horizontal_flip : Bool
  vertical_flip : Bool
  rotation_range : ℚ
  width_shift_range : ℚ
  height_shift_range : ℚ
  zoom_range : ℚ
  deriving Repr, DecidableEq

/-- `Executor.get_datagen_params`: the dict literal of line 108; the
intensity-augmentation branch (lines 113-115) is commented out in the
source, so `augment_intensity` is never read. -/
def get_datagen_params (augment_intensity : Bool) : DatagenParams :=
  { horizontal_flip := false
    vertical_flip := false
    rotation_range := 20
    width_shift_range := 0
    height_shift_range := 0
    zoom_range := 0 }

/-- An augmenting iterator made by `ImageDataGenerator(**params).flow(arr,
batch_size=conf.batch_size, seed=conf.seed)`: the external object is
modelled by the data it closes over. -/
structure Gen where
  data : Arr
  batch_size : Int
  seed : Int
  params : DatagenParams
  deriving Repr, DecidableEq

/-- What `get_data_generator` returns on success: a single iterator, or a
`itertools.zip_longest` of several. -/
inductive GenOut where
  | single : Gen → GenOut
  | zipLongest : List Gen → GenOut
  deriving Repr, DecidableEq

/-- A `train_images` / `train_labels` argument: `None`, a single array, or
a list of arrays. -/
inductive PyArg where
  | none : PyArg
  | single : Arr → PyArg
  | list : List Arr → PyArg
  deriving Repr, DecidableEq

/-- The arrays an argument supplies after the `type(x) != list` wrapping
of lines 49-50 / 58-59: `None` contributes nothing, a bare array is
wrapped into a one-element list. -/
def argArrays : PyArg → List Arr
  | .none => []
  | .single a => [a]
  | .list l => l

/-- `Executor.get_data_generator`: build an augmenting iterator per image
array (with the intensity params) and per label array (with the mask
params), then combine: both kinds present → `zip_longest` over all; one
kind with a single generator → that generator; one kind with several →
`zip_longest`; none → raise `"No data to iterate."`. -/
def get_data_generator (conf : Conf) (train_images train_labels : PyArg) :
    Except String GenOut :=
  let image_dict := get_datagen_params true
  let mask_dict := get_datagen_params false
  let img_gens : List Gen := (argArrays train_images).map
    (fun img_array => ⟨img_array, conf.batch_size, conf.seed, image_dict⟩)
  let msk_gens : List Gen := (argArrays train_labels).map
    (fun msk_array => ⟨msk_array, conf.batch_size, conf.seed, mask_dict⟩)
  if 0 < img_gens.length ∧ 0 < msk_gens.length then
    .ok (.zipLongest (img_gens ++ msk_gens))
  else if 0 < img_gens.length ∧ msk_gens.length = 0 then
    match img_gens with
    | [g] => .ok (.single g)
    | gs => .ok (.zipLongest gs)
  else if img_gens.length = 0 ∧ 0 < msk_gens.length then
    match msk_gens with
    | [g] => .ok (.single g)
    | gs => .ok (.zipLongest gs)
  else
    .error "No data to iterate."

/-- Whether an embedded call raised. -/
def isErr : Except String GenOut → Bool
  | .error _ => true
  | .ok _ => false

/-- Elementwise `x + 0.` on an array: the fresh-copy idiom of line 124. -/
def scalarAdd0 (a : Arr) : Arr :=
  a.map (fun row => row.map (fun v => v + 0))

/-- `np.min` over a list of naturals; numpy raises on an empty list. -/
def np_min (l : List Nat) : Except String Nat :=
  match l with
  | [] => .error "ValueError: zero-size array to reduction operation minimum which has no identity"
  | [x] => .ok x
  | x :: t => match np_min t with
    | .ok m => .ok (min x m)
    | .error e => .error e

/-- `Executor.align_batches` (value level): `mn` is the minimum leading
dimension, each array is replaced by `x[0:mn] + 0.`. -/
def align_batches (array_list : List Arr) : Except String (List Arr) :=
  match np_min (array_list.map (fun x => x.length)) with
  | .error e => .error e
  | .ok mn => .ok (array_list.map (fun x => scalarAdd0 (x.take mn)))

/-- A heap of numpy arrays, for stating what `align_batches` leaves
untouched: Python variables hold references (indices) into the heap. -/
abbrev Store : Type := List Arr

/-- `Executor.align_batches` (heap level): the input is a list of
references into the store; each `x[0:mn] + 0.` allocates a fresh array,
appended to the store, and the result is the list of fresh references.
No existing cell is written. -/
def align_batches_heap (σ : Store) (refs : List Nat) :
    Except String (Store × List Nat) :=
  match np_min (refs.map (fun r => (σ.getD r []).length)) with
  | .error e => .error e
  | .ok mn =>
    let news := refs.map (fun r => scalarAdd0 ((σ.getD r []).take mn))
    .ok (σ ++ news, (List.range refs.length).map (fun i => σ.length + i))

/-- The last dimension of a numpy array viewed as positions × channels
(`data.shape[-1]`): the common row length. -/
def shapeLast (data : Arr) : Nat :=
  match data with
  | [] => 0
  | r :: _ => r.length

/-- `Executor.add_residual`: `residual` starts as ones over the positions;
the loop over channel indices `i` writes `0` wherever `data[..., i] == 1`;
the result is `data` with `residual` concatenated on the last axis.
Positions are the rows of `data`. -/
def add_residual (data : Arr) : Arr :=
  let c := shapeLast data
  data.map (fun row =>
    row ++ [(List.range c).foldl
      (fun r i => if row.getD i 0 = 1 then 0 else r) 1])

/-- The mutable state of the external early-stopping policy object that
`stop_criterion` reads: its `stopped_epoch` attribute. -/
structure ESState where
  stopped_epoch : Int
  deriving Repr, DecidableEq

/-- Training logs passed through to the early-stopping hook. -/
abbrev Logs : Type := List (String × ℚ)

/-- A Python return value of `stop_criterion`: `True` from line 101, or
the implicit `None` when the `if` is not taken; `False` never occurs but
is a representable value so the spec's wording can be tested. -/
inductive PyRet where
  | pyTrue : PyRet
  | pyFalse : PyRet
  | pyNone : PyRet
  deriving Repr, DecidableEq

/-- `Executor.stop_criterion`: call `es.on_epoch_end(self.epoch, logs)`
(the external method is the parameter `hook`, mutating `es`), then
`return True` when `es.stopped_epoch > 0`; otherwise the function falls
through and returns `None`. The mutated `es` is returned alongside. -/
def stop_criterion (hook : Int → Logs → ESState → ESState) (epoch : Int)
    (es : ESState) (logs : Logs) : ESState × PyRet :=
  let es := hook epoch logs es
  (es, if es.stopped_epoch > 0 then .pyTrue else .pyNone)

theorem getD_mem_of_lt {α : Type _} (l : List α) (d : α) (i : Nat)
    (h : i < l.length) : l.getD i d ∈ l := by
  rw [List.getD_eq_getElem l d h]
  exact List.getElem_mem h

/-- C5: for every value of `augment_intensity`, `get_datagen_params`
returns the same fixed dictionary: flips disabled, rotation range 20,
shift ranges 0, zoom range 0; the intensity-only variant has no effect. -/
theorem get_datagen_params_constant (b b' : Bool) :
    get_datagen_params b = get_datagen_params b' ∧
    get_datagen_params b =
      { horizontal_flip := false
        vertical_flip := false
        rotation_range := 20
        width_shift_range := 0
        height_shift_range := 0
        zoom_range := 0 } :=
  ⟨rfl, rfl⟩

/-- C7 counterexample: with a hook that leaves the policy state at
`stopped_epoch = 0`, `stop_criterion` returns the Python value `None`,
not `False` as the claim states. -/
theorem stop_criterion_counterexample :
    (stop_criterion (fun _ _ es => es) 3 ⟨0⟩ []).2 = PyRet.pyNone ∧
    PyRet.pyNone ≠ PyRet.pyFalse := by
  constructor
  · rfl
  · intro h
    exact PyRet.noConfusion h

/-- C7 (amended): `stop_criterion` first invokes the early-stopping
hook with the current epoch counter; it then returns `True` exactly when
the (updated) `stopped_epoch` is positive, and `None` — a falsy value,
but not `False` — otherwise. -/
theorem stop_criterion_spec (hook : Int → Logs → ESState → ESState)
    (epoch : Int) (es : ESState) (logs : Logs) :
    (stop_criterion hook epoch es logs).1 = hook epoch logs es ∧
    ((stop_criterion hook epoch es logs).2 = PyRet.pyTrue ↔
      (hook epoch logs es).stopped_epoch > 0) ∧
    ((stop_criterion hook epoch es logs).2 = PyRet.pyTrue ∨
      (stop_criterion hook epoch es logs).2 = PyRet.pyNone) := by
  refine ⟨rfl, ?_, ?_⟩ <;> simp only [stop_criterion] <;> split
  · simp_all
  · simp_all
  · exact Or.inl rfl
  · exact Or.inr rfl

/-- C1: whenever `get_fake` returns and `pred` has at least one row, the
returned pool is the last at-most-50 entries of the input pool extended
with the rows of `pred`; in particular it never holds more than 50
entries. -/
theorem get_fake_pool_capped (conf : Conf) (rng : Nat → Nat → List Nat)
    (pred fake_pool : Arr) (sample_size : Int) (p a : Arr)
    (hpred : pred ≠ [])
    (h : get_fake conf rng pred fake_pool sample_size = .ok (p, a)) :
    p = lastN 50 (fake_pool ++ pred) ∧ p.length ≤ 50 := by
  have hlen : 0 < pred.length := List.length_pos.mpr hpred
  unfold get_fake get_fake_core at h
  simp only [if_pos hlen] at h
  rcases hch : np_random_choice rng (lastN 50 (fake_pool ++ pred)).length
      (if sample_size = -1 then conf.batch_size else sample_size) with e | sel
  · rw [hch] at h
    exact absurd h (by simp)
  · rw [hch] at h
    simp only [Except.ok.injEq, Prod.mk.injEq] at h
    exact ⟨h.1.symm, h.1 ▸ lastN_length_le 50 (fake_pool ++ pred)⟩

theorem get_fake_pool_capped_witness :
    ([[5]] : Arr) = lastN 50 (([] : Arr) ++ [[5]]) ∧ ([[5]] : Arr).length ≤ 50 :=
  get_fake_pool_capped ⟨1, 0⟩ rngFirst [[5]] [] 1 [[5]] [[5]]
    (by simp) rfl

/-- C8: when the requested (non-negative) sample size exceeds the capped
pool's length — in particular any positive size with an empty pool and a
row-less `pred` — `get_fake` does not handle the condition: the error of
the without-replacement sampling operation propagates. -/
theorem get_fake_propagates_error (conf : Conf) (rng : Nat → Nat → List Nat)
    (pred fake_pool : Arr) (sample_size : Int)
    (hnn : 0 ≤ sample_size)
    (hgt : (cappedPool pred fake_pool).length < sample_size.toNat) :
    get_fake conf rng pred fake_pool sample_size =
      .error "ValueError: Cannot take a larger sample than population when 'replace=False'" := by
  have hne : sample_size ≠ -1 := by omega
  have hlt : ¬ sample_size < 0 := by omega
  unfold cappedPool at hgt
  unfold get_fake get_fake_core np_random_choice
  simp only [if_neg hne, if_neg hlt, if_pos hgt]

theorem get_fake_propagates_error_witness :
    get_fake ⟨1, 0⟩ rngFirst [] [] 1 =
      .error "ValueError: Cannot take a larger sample than population when 'replace=False'" :=
  get_fake_propagates_error ⟨1, 0⟩ rngFirst [] [] 1 (by decide) (by decide)

/-- C10: passing the default `sample_size` of `-1` is the same call as
passing `conf.batch_size`; a non-negative `sample_size` is used as given
(it reaches the post-substitution body unchanged). -/
theorem get_fake_default_size (conf : Conf) (rng : Nat → Nat → List Nat)
    (pred fake_pool : Arr) (s : Int) (hs : 0 ≤ s) :
    get_fake conf rng pred fake_pool (-1) =
      get_fake conf rng pred fake_pool conf.batch_size ∧
    get_fake conf rng pred fake_pool s = get_fake_core rng pred fake_pool s := by
  constructor
  · unfold get_fake
    by_cases hb : conf.batch_size = -1 <;> simp [hb]
  · unfold get_fake
    have hne : s ≠ -1 := by omega
    simp [hne]

theorem get_fake_default_size_witness :
    get_fake ⟨1, 0⟩ rngFirst [[5]] [] (-1) =
      get_fake ⟨1, 0⟩ rngFirst [[5]] [] (Conf.mk 1 0).batch_size ∧
    get_fake ⟨1, 0⟩ rngFirst [[5]] [] 2 = get_fake_core rngFirst [[5]] [] 2 :=
  get_fake_default_size ⟨1, 0⟩ rngFirst [[5]] [] 2 (by decide)

theorem np_min_spec : ∀ l : List Nat, l ≠ [] →
    ∃ m, np_min l = .ok m ∧ m ∈ l ∧ ∀ x ∈ l, m ≤ x := by
  intro l
  induction l with
  | nil => intro h; exact absurd rfl h
  | cons x t ih =>
    intro _
    cases t with
    | nil =>
      exact ⟨x, rfl, by simp, by simp⟩
    | cons y u =>
      obtain ⟨m, hm, hmem, hle⟩ := ih (by simp)
      refine ⟨min x m, ?_, ?_, ?_⟩
      · show np_min (x :: y :: u) = .ok (min x m)
        unfold np_min
        rw [hm]
      · rcases Nat.le_total x m with hxm | hmx
        · simp [min_eq_left hxm]
        · rw [min_eq_right hmx]
          exact List.mem_cons_of_mem x hmem
      · intro z hz
        rcases List.mem_cons.mp hz with h1 | hz
        · rw [h1]
          exact min_le_left x m
        · exact le_trans (min_le_right x m) (hle z hz)

theorem scalarAdd0_id (a : Arr) : scalarAdd0 a = a := by
  simp [scalarAdd0]

/-- C4: on a non-empty list, `align_batches` succeeds; the output has the
input's length, its `i`-th element is the first `mn` entries of the
`i`-th input, where `mn` is the minimum leading dimension of the inputs,
and every output array has leading dimension exactly `mn`. -/
theorem align_batches_trims (array_list : List Arr)
    (hne : array_list ≠ []) :
    ∃ mn out, align_batches array_list = .ok out ∧
      out.length = array_list.length ∧
      (∀ x ∈ array_list, mn ≤ x.length) ∧
      (∃ x ∈ array_list, x.length = mn) ∧
      ∀ i, i < array_list.length →
        out.getD i [] = (array_list.getD i []).take mn ∧
        (out.getD i []).length = mn := by
  have hmapne : array_list.map (fun x => x.length) ≠ [] := by
    simpa using hne
  obtain ⟨mn, hmn, hmem, hle⟩ := np_min_spec _ hmapne
  refine ⟨mn, array_list.map (fun x => scalarAdd0 (x.take mn)), ?_, ?_, ?_, ?_, ?_⟩
  · unfold align_batches
    rw [hmn]
  · exact List.length_map _ _
  · intro x hx
    exact hle x.length (List.mem_map_of_mem (fun x => x.length) hx)
  · obtain ⟨x, hx, hxl⟩ := List.mem_map.mp hmem
    exact ⟨x, hx, hxl⟩
  · intro i hi
    have hi' : i < (array_list.map (fun x => scalarAdd0 (x.take mn))).length := by
      simpa using hi
    rw [List.getD_eq_getElem _ _ hi', List.getElem_map,
      List.getD_eq_getElem _ _ hi, scalarAdd0_id]
    refine ⟨rfl, ?_⟩
    rw [List.length_take]
    exact min_eq_left (hle _ (List.mem_map_of_mem _ (List.getElem_mem hi)))

theorem align_batches_trims_witness :
    ∃ mn out, align_batches [[[1], [2]], [[3]]] = .ok out ∧
      out.length = ([[[1], [2]], [[3]]] : List Arr).length ∧
      (∀ x ∈ ([[[1], [2]], [[3]]] : List Arr), mn ≤ x.length) ∧
      (∃ x ∈ ([[[1], [2]], [[3]]] : List Arr), x.length = mn) ∧
      ∀ i, i < ([[[1], [2]], [[3]]] : List Arr).length →
        out.getD i [] = (([[[1], [2]], [[3]]] : List Arr).getD i []).take mn ∧
        (out.getD i []).length = mn :=
  align_batches_trims [[[1], [2]], [[3]]] (by simp)

/-- C9: `align_batches` (heap level) only allocates: on success every
pre-existing store cell still holds exactly the array it held before the
call, so no element of any input array is modified. -/
theorem align_batches_heap_frame (σ : Store) (refs : List Nat)
    (σ' : Store) (out : List Nat)
    (h : align_batches_heap σ refs = .ok (σ', out)) :
    ∀ r, r < σ.length → σ'.getD r [] = σ.getD r [] := by
  unfold align_batches_heap at h
  rcases hm : np_min (refs.map (fun r => (σ.getD r []).length)) with e | mn
  · rw [hm] at h
    exact absurd h (by simp)
  · rw [hm] at h
    simp only [Except.ok.injEq, Prod.mk.injEq] at h
    intro r hr
    rw [← h.1, List.getD_append _ _ _ _ hr]

theorem align_batches_heap_frame_witness :
    ([[[1]]] ++ [[[1]]] : Store).getD 0 [] = ([[[1]]] : Store).getD 0 [] :=
  align_batches_heap_frame [[[1]]] [0] ([[[1]]] ++ [[[1]]]) [1] rfl 0 (by decide)

theorem get_fake_eq (conf : Conf) (rng : Nat → Nat → List Nat)
    (pred fake_pool : Arr) (sample_size : Int) :
    get_fake conf rng pred fake_pool sample_size =
      match np_random_choice rng (cappedPool pred fake_pool).length
          (if sample_size = -1 then conf.batch_size else sample_size) with
      | .error e => .error e
      | .ok sel =>
        .ok (cappedPool pred fake_pool,
          sel.map (fun ind => (cappedPool pred fake_pool).getD ind [])) := rfl

/-- C2: under the without-replacement contract of the random source, a
positive `sample_size` no larger than the capped pool yields an array of
exactly `sample_size` entries drawn at pairwise-distinct valid indices of
the capped pool, each entry a member of that pool. -/
theorem get_fake_sample_spec (conf : Conf) (rng : Nat → Nat → List Nat)
    (pred fake_pool : Arr) (sample_size : Int)
    (hrng : ChoiceRng rng) (hpos : 0 < sample_size)
    (hle : sample_size.toNat ≤ (cappedPool pred fake_pool).length) :
    ∃ (fake_A : Arr) (sel : List Nat),
      get_fake conf rng pred fake_pool sample_size =
        .ok (cappedPool pred fake_pool, fake_A) ∧
      fake_A.length = sample_size.toNat ∧
      sel.Nodup ∧ sel.length = sample_size.toNat ∧
      (∀ i ∈ sel, i < (cappedPool pred fake_pool).length) ∧
      fake_A = sel.map (fun ind => (cappedPool pred fake_pool).getD ind []) ∧
      ∀ x ∈ fake_A, x ∈ cappedPool pred fake_pool := by
  have hne : sample_size ≠ -1 := by omega
  have hlt : ¬ sample_size < 0 := by omega
  obtain ⟨hlen, hnodup, hmemlt⟩ :=
    hrng (cappedPool pred fake_pool).length sample_size.toNat hle
  refine ⟨_, rng (cappedPool pred fake_pool).length sample_size.toNat,
    ?_, ?_, hnodup, hlen, hmemlt, rfl, ?_⟩
  · rw [get_fake_eq]
    simp only [if_neg hne]
    unfold np_random_choice
    rw [if_neg hlt, if_neg (by omega)]
  · rw [List.length_map]
    exact hlen
  · intro x hx
    obtain ⟨i, hi, hfi⟩ := List.mem_map.mp hx
    rw [← hfi]
    exact getD_mem_of_lt _ _ _ (hmemlt i hi)

theorem get_fake_sample_spec_witness :
    ∃ (fake_A : Arr) (sel : List Nat),
      get_fake ⟨1, 0⟩ rngFirst [[5], [7]] [] 1 =
        .ok (cappedPool [[5], [7]] [], fake_A) ∧
      fake_A.length = (1 : Int).toNat ∧
      sel.Nodup ∧ sel.length = (1 : Int).toNat ∧
      (∀ i ∈ sel, i < (cappedPool [[5], [7]] []).length) ∧
      fake_A = sel.map (fun ind => (cappedPool [[5], [7]] []).getD ind []) ∧
      ∀ x ∈ fake_A, x ∈ cappedPool [[5], [7]] [] :=
  get_fake_sample_spec ⟨1, 0⟩ rngFirst [[5], [7]] [] 1
    rngFirst_contract (by decide) (by decide)

/-- C3 counterexample: with `train_images` an empty list (not `None`) and
`train_labels` `None`, `get_data_generator` raises even though the two
arguments are not both `None`, refuting the claimed "if and only if both
are None". -/
theorem get_data_generator_counterexample :
    isErr (get_data_generator ⟨4, 0⟩ (PyArg.list []) PyArg.none) = true ∧
    PyArg.list [] ≠ PyArg.none :=
  ⟨rfl, fun h => PyArg.noConfusion h⟩

/-- C3 (amended): `get_data_generator` raises exactly when no array is
supplied — each of `train_images` and `train_labels` is `None` or an
empty list; whenever at least one array is supplied it returns an
iterator without raising. -/
theorem get_data_generator_raises_iff (conf : Conf) (ti tl : PyArg) :
    isErr (get_data_generator conf ti tl) = true ↔
      argArrays ti = [] ∧ argArrays tl = [] := by
  unfold get_data_generator
  rcases hti : argArrays ti with _ | ⟨a, as⟩ <;>
    rcases htl : argArrays tl with _ | ⟨b, bs⟩
  · simp [isErr]
  · cases bs <;> simp [isErr]
  · cases as <;> simp [isErr]
  · simp [isErr]

theorem foldl_residual_flag (l : List Int) (init : Int) :
    l.foldl (fun r v => if v = 1 then 0 else r) init =
      if ∃ v ∈ l, v = 1 then 0 else init := by
  induction l generalizing init with
  | nil => simp
  | cons x t ih =>
    rw [List.foldl_cons, ih]
    by_cases hx : x = 1
    · simp [hx]
    · have h1x : ¬ (1 : Int) = x := fun h => hx h.symm
      simp [hx, h1x]

theorem range_getD_foldl (row : List Int) :
    (List.range row.length).foldl
        (fun (r : Int) i => if row.getD i 0 = 1 then 0 else r) 1 =
      row.foldl (fun (r : Int) v => if v = 1 then 0 else r) 1 := by
  have hmap : (List.range row.length).map (fun i => row.getD i 0) = row := by
    apply List.ext_getElem
    · simp
    · intro i h1 h2
      rw [List.getElem_map, List.getElem_range]
      exact List.getD_eq_getElem row 0 h2
  conv_rhs => rw [← hmap]
  rw [List.foldl_map]

/-- C6: on a one-hot-like array (uniform row length, entries 0 or 1),
`add_residual` returns the input with one extra channel appended on the
last axis, valued 0 at a position where some input channel is 1 and 1
otherwise; the original channels are unchanged and the last dimension
grows by one. -/
theorem add_residual_spec (data : Arr)
    (hshape : ∀ row ∈ data, row.length = shapeLast data)
    (h01 : ∀ row ∈ data, ∀ v ∈ row, v = 0 ∨ v = 1) :
    add_residual data =
      data.map (fun row => row ++ [if ∃ v ∈ row, v = 1 then (0 : Int) else 1]) ∧
    (add_residual data).length = data.length ∧
    (∀ row ∈ data,
      (row ++ [if ∃ v ∈ row, v = 1 then (0 : Int) else 1]).length =
        row.length + 1) ∧
    (data ≠ [] → shapeLast (add_residual data) = shapeLast data + 1) := by
  have hmain : add_residual data =
      data.map (fun row => row ++ [if ∃ v ∈ row, v = 1 then (0 : Int) else 1]) := by
    unfold add_residual
    apply List.map_congr_left
    intro row hrow
    rw [← hshape row hrow]
    exact congrArg (fun z => row ++ [z])
      ((range_getD_foldl row).trans (foldl_residual_flag row 1))
  refine ⟨hmain, ?_, ?_, ?_⟩
  · rw [hmain, List.length_map]
  · intro row _
    simp
  · intro hne
    cases data with
    | nil => exact absurd rfl hne
    | cons r rest =>
      rw [hmain]
      show (r ++ [if ∃ v ∈ r, v = 1 then (0 : Int) else 1]).length = r.length + 1
      simp

theorem add_residual_spec_witness :
    add_residual [[1, 0], [0, 0]] =
      ([[1, 0], [0, 0]] : Arr).map
        (fun row => row ++ [if ∃ v ∈ row, v = 1 then (0 : Int) else 1]) ∧
    (add_residual [[1, 0], [0, 0]]).length = ([[1, 0], [0, 0]] : Arr).length ∧
    (∀ row ∈ ([[1, 0], [0, 0]] : Arr),
      (row ++ [if ∃ v ∈ row, v = 1 then (0 : Int) else 1]).length =
        row.length + 1) ∧
    (([[1, 0], [0, 0]] : Arr) ≠ [] →
      shapeLast (add_residual [[1, 0], [0, 0]]) =
        shapeLast [[1, 0], [0, 0]] + 1) :=
  add_residual_spec [[1, 0], [0, 0]] (by decide) (by decide)

end BaseExecutor
